import Mathlib

/-!
Shallow embedding of `src/memory.rs` (ixy.rs memory-management core):
huge-page DMA allocation size rounding, the `Mempool` fixed-entry buffer
pool with its free-list (a `Vec<usize>` used as a stack: `push`/`pop` at
the end), the `Packet` handle, single and batch packet allocation,
`memset`, and `virt_to_phys`.

Machine memory is modelled as a total function `Nat → Nat` from byte
addresses to byte values; OS effects (mmap success, pagemap file
contents) are parameters of the corresponding functions.
-/

namespace IxyMemory

/-- Embeds `const HUGE_PAGE_BITS: u32 = 21` (memory.rs line 16). -/
def HUGE_PAGE_BITS : Nat := 21

/-- Embeds `const HUGE_PAGE_SIZE: usize = 1 << HUGE_PAGE_BITS` (memory.rs line 17). -/
def HUGE_PAGE_SIZE : Nat := 1 <<< HUGE_PAGE_BITS

/-- Modulus of `usize` arithmetic on the reference 64-bit platform. -/
def USIZE_MOD : Nat := 2 ^ 64

/-- The size-rounding step at the top of `Dma::allocate` (memory.rs lines 36-40):
`if size % HUGE_PAGE_SIZE != 0 { ((size >> HUGE_PAGE_BITS) + 1) << HUGE_PAGE_BITS } else { size }`,
computed in `usize`: the left shift discards bits beyond the word width (Rust
`<<` wraps silently in both debug and release builds; only shift amounts ≥ 64
panic), hence the `% USIZE_MOD`. For a `usize` input (`size < 2^64`) the
intermediate `(size >> 21) + 1` cannot itself wrap, so this is the only
reduction needed. This rounded value is the length passed to every subsequent
`mmap`/`mlock` call. -/
def dmaRoundSize (size : Nat) : Nat :=
  if size % HUGE_PAGE_SIZE ≠ 0 then
    (((size >>> HUGE_PAGE_BITS) + 1) <<< HUGE_PAGE_BITS) % USIZE_MOD
  else
    size

/-- Embeds `struct Mempool` (memory.rs lines 240-246). `free_stack` is a
`RefCell<Vec<usize>>`; a `Vec` pushes and pops at its end, so the end of
the list is the top of the stack. -/
structure Mempool where
  base_addr : Nat
  num_entries : Nat
  entry_size : Nat
  phys_addresses : List Nat
  free_stack : List Nat
deriving DecidableEq, Repr

/-- Embeds `Mempool::alloc_buf` (memory.rs lines 293-295): `self.free_stack.borrow_mut().pop()`.
`Vec::pop` removes and returns the last element, or `None` on an empty vector. -/
def Mempool.alloc_buf (p : Mempool) : Option Nat × Mempool :=
  match p.free_stack.getLast? with
  | some i => (some i, { p with free_stack := p.free_stack.dropLast })
  | none => (none, p)

/-- Embeds `Mempool::free_buf` (memory.rs lines 298-300): `self.free_stack.borrow_mut().push(id)`.
The push is unconditional: no check that `id` is absent or in range. -/
def Mempool.free_buf (p : Mempool) (id : Nat) : Mempool :=
  { p with free_stack := p.free_stack ++ [id] }

/-- Embeds `Mempool::get_virt_addr` (memory.rs lines 303-305): `self.base_addr.add(id * self.entry_size)`. -/
def Mempool.get_virt_addr (p : Mempool) (id : Nat) : Nat :=
  p.base_addr + id * p.entry_size

/-- Embeds `Mempool::get_phys_addr` (memory.rs lines 308-310): `self.phys_addresses[id]`. -/
def Mempool.get_phys_addr (p : Mempool) (id : Nat) : Nat :=
  p.phys_addresses.getD id 0

/-- Embeds `struct Packet` (memory.rs lines 121-127). The `pool: Rc<Mempool>` field is
not stored here: pool state is threaded explicitly through every operation. -/
structure Packet where
  addr_virt : Nat
  addr_phys : Nat
  len : Nat
  pool_entry : Nat
deriving DecidableEq, Repr

/-- Embeds `alloc_pkt` (memory.rs lines 336-353): `None` when `size > pool.entry_size`
(before touching the free list) or when `alloc_buf` finds the free list empty;
otherwise wraps the popped entry index with logical length `size`. -/
def alloc_pkt (pool : Mempool) (size : Nat) : Option Packet × Mempool :=
  if size > pool.entry_size then
    (none, pool)
  else
    match pool.alloc_buf with
    | (some packet, pool') =>
      (some { addr_virt := pool.get_virt_addr packet
              addr_phys := pool.get_phys_addr packet
              len := size
              pool_entry := packet }, pool')
    | (none, pool') => (none, pool')

/-- A single byte store: the memory after writing value `v` at address `a`. -/
def writeByte (mem : Nat → Nat) (a v : Nat) : Nat → Nat :=
  fun x => if x = a then v else mem x

/-- Embeds `memset` (memory.rs lines 356-360): `for i in 0..len { ptr::write_volatile(addr.add(i), value) }`,
modelled at element type `u8` (the only instantiation in this file, from
`Mempool::allocate`). The fold performs the per-index writes in loop order. -/
def memset (mem : Nat → Nat) (addr len value : Nat) : Nat → Nat :=
  (List.range len).foldl (fun m i => writeByte m (addr + i) value) mem

/-- Outcome of `Mempool::allocate`: `ok` for `Ok(pool)`, `err` for a propagated
`Err` (from `Dma::allocate` or `virt_to_phys`), `panicked` for the
`panic!("entry size must be a divisor of the page size")` abort. -/
inductive AllocResult (α : Type) where
  | ok : α → AllocResult α
  | err : AllocResult α
  | panicked : AllocResult α
deriving DecidableEq, Repr

/-- Embeds `Mempool::allocate` (memory.rs lines 254-290). OS effects are parameters:
`vfio` is `get_vfio_container() != -1`; `dmaOk`/`base` stand for
failure/success of `Dma::allocate` and the virtual base address it returns;
`physOf` is `virt_to_phys` on an address where it succeeds (`none` = error).
Steps in source order: default `entry_size`, divisor panic check, DMA
allocation, per-entry address resolution, the `memset` zero fill, and the
free-stack fill `extend(0..entries)`. -/
def Mempool.allocate (entries size : Nat) (vfio : Bool) (dmaOk : Bool) (base : Nat)
    (physOf : Nat → Option Nat) (mem : Nat → Nat) :
    AllocResult (Mempool × (Nat → Nat)) :=
  let entry_size := match size with
    | 0 => 2048
    | x => x
  if ¬vfio ∧ HUGE_PAGE_SIZE % entry_size ≠ 0 then
    .panicked
  else if ¬dmaOk then
    .err
  else
    let addrs := (List.range entries).map fun i =>
      if vfio then some (base + i * entry_size) else physOf (base + i * entry_size)
    if addrs.all Option.isSome then
      let pool : Mempool :=
        { base_addr := base
          num_entries := entries
          entry_size := entry_size
          phys_addresses := addrs.map (Option.getD · 0)
          free_stack := [] }
      let mem' := memset mem pool.base_addr (pool.num_entries * pool.entry_size) 0x00
      .ok ({ pool with free_stack := List.range entries }, mem')
    else
      .err

/-- The loop body of `alloc_pkt_batch` (memory.rs lines 320-329), with explicit
fuel for structural recursion. Each successful `alloc_pkt` shortens the free
stack by one, so fuel `free_stack.length + 1` is never exhausted (see
`batchGo_exhaust`); the Rust loop terminates for the same reason. -/
def batchGo (fuel : Nat) (pool : Mempool) (buffer : List Packet)
    (allocated num_packets size : Nat) : Nat × List Packet × Mempool :=
  match fuel with
  | 0 => (allocated, buffer, pool)
  | fuel + 1 =>
    match alloc_pkt pool size with
    | (some p, pool') =>
      if allocated + 1 ≥ num_packets then
        (allocated + 1, buffer ++ [p], pool')
      else
        batchGo fuel pool' (buffer ++ [p]) (allocated + 1) num_packets size
    | (none, pool') => (allocated, buffer, pool')

/-- Embeds `alloc_pkt_batch` (memory.rs lines 314-332): `allocated = 0`, then
`while let Some(p) = alloc_pkt(pool, packet_size)` pushing each packet onto
`buffer` and breaking once `allocated >= num_packets` (checked after the
increment). Returns the final count together with the queue and pool. -/
def alloc_pkt_batch (pool : Mempool) (buffer : List Packet)
    (num_packets packet_size : Nat) : Nat × List Packet × Mempool :=
  batchGo (pool.free_stack.length + 1) pool buffer 0 num_packets packet_size

/-- Embeds `<[u8]>::clone_from_slice` as used by `Packet::clone` (memory.rs line
132): copy `len` bytes starting at `src` over the `len` bytes starting at
`dst`; all other memory is untouched. -/
def clone_from_slice (mem : Nat → Nat) (dst src len : Nat) : Nat → Nat :=
  fun a => if dst ≤ a ∧ a < dst + len then mem (src + (a - dst)) else mem a

/-- Embeds `impl Clone for Packet` (memory.rs lines 129-136):
`alloc_pkt(&self.pool, self.len).expect("no buffer available")` followed by
`p.clone_from_slice(&self)`. Returns `none` exactly when `alloc_pkt` fails,
which is the `expect` panic; otherwise the new packet, the updated pool, and
the memory after byte-copying `self.len` bytes from `self.addr_virt` to the
new packet's address. -/
def Packet.clone (self : Packet) (pool : Mempool) (mem : Nat → Nat) :
    Option (Packet × Mempool × (Nat → Nat)) :=
  match alloc_pkt pool self.len with
  | (some p, pool') => some (p, pool', clone_from_slice mem p.addr_virt self.addr_virt self.len)
  | (none, _) => none

/-- The byte view `Deref for Packet` exposes (memory.rs lines 138-144):
exactly `len` bytes starting at `addr_virt`. -/
def packetBytes (mem : Nat → Nat) (p : Packet) : List Nat :=
  (List.range p.len).map fun i => mem (p.addr_virt + i)

/-- Value of `mem::size_of::<usize>()` on the reference 64-bit platform: the pagemap
record size in bytes. -/
def recordSize : Nat := 8

/-- The page-frame-number mask `0x007f_ffff_ffff_ffff` (memory.rs line 378). -/
def PFN_MASK : Nat := 0x007fffffffffffff

/-- The little-endian value of a byte list, least significant byte first:
the effect of `mem::transmute::<[u8; 8], usize>` on the reference
little-endian platform. -/
def leValue : List Nat → Nat
  | [] => 0
  | b :: bs => b + 256 * leValue bs

/-- The `/proc/self/pagemap` access environment of `virt_to_phys`: whether the
`open` succeeds, and the outcome of seeking to an offset and reading
`recordSize` bytes there (`none` = seek or `read_exact` error). -/
structure PagemapEnv where
  openOk : Bool
  readAt : Nat → Option (List Nat)

/-- Embeds `virt_to_phys` (memory.rs lines 363-379): seek to
`addr / pagesize * size_of::<usize>()`, read one `usize` record, transmute it
(little-endian), mask with `0x007f_ffff_ffff_ffff`, and return
`frame * pagesize + addr % pagesize`. Any open/seek/read error propagates. -/
def virt_to_phys (pagesize : Nat) (env : PagemapEnv) (addr : Nat) :
    Except Unit Nat :=
  if ¬env.openOk then
    .error ()
  else
    match env.readAt (addr / pagesize * recordSize) with
    | none => .error ()
    | some buffer => .ok ((leValue buffer &&& PFN_MASK) * pagesize + addr % pagesize)

/-! ## Trace model for the free-list / live-handle discipline

A client of the pool performs checkouts (`alloc_pkt`, which subsumes
`alloc_buf`) and releases (`Packet::drop` calling `free_buf`). A release is
performed by a live handle on the index it holds, so release steps on indices
without a live handle do not occur and are modelled as no-ops. The `live` list
is the ghost multiset of entry indices held by live `Packet` handles. -/

/-- One client-visible pool operation. -/
inductive PoolOp where
  | checkout (size : Nat)
  | release (idx : Nat)
deriving DecidableEq, Repr

/-- Pool state plus the ghost list of indices held by live packets. -/
structure TraceState where
  pool : Mempool
  live : List Nat
deriving DecidableEq, Repr

/-- Effect of one operation: a checkout runs `alloc_pkt` (memory.rs line 336)
and, on success, the returned packet's index becomes live; a release runs
`Packet::drop` → `free_buf` (memory.rs lines 152-157, 298-300) for an index a
live handle holds. -/
def stepOp (s : TraceState) : PoolOp → TraceState
  | .checkout size =>
    match alloc_pkt s.pool size with
    | (some p, pool') => { pool := pool', live := p.pool_entry :: s.live }
    | (none, pool') => { pool := pool', live := s.live }
  | .release i =>
    if i ∈ s.live then { pool := s.pool.free_buf i, live := s.live.erase i }
    else s

/-- Run a sequence of operations. -/
def runOps (s : TraceState) (ops : List PoolOp) : TraceState :=
  ops.foldl stepOp s

/-- A freshly allocated pool has no live packets. -/
def freshState (pool : Mempool) : TraceState :=
  { pool := pool, live := [] }

/-- The ownership invariant: the free list and the live indices are
duplicate-free, disjoint, and together are exactly the set of entry indices
`{0 .. num_entries}`. -/
def PoolInv (s : TraceState) : Prop :=
  s.pool.free_stack.Nodup ∧ s.live.Nodup ∧
  (∀ a ∈ s.pool.free_stack, a ∉ s.live) ∧
  (s.pool.free_stack ++ s.live).toFinset = Finset.range s.pool.num_entries

instance (s : TraceState) : Decidable (PoolInv s) := by
  unfold PoolInv; infer_instance

/-! ## Helper lemmas about `alloc_pkt` and `memset` -/

/-! ## Concrete instances used by witnesses and counterexamples -/

def poolC1 : Mempool :=
  { base_addr := 0, num_entries := 2, entry_size := 16,
    phys_addresses := [0, 16], free_stack := [0, 1] }

def pktC1 : Packet := { addr_virt := 0, addr_phys := 0, len := 5, pool_entry := 0 }

def poolC1b : Mempool :=
  { base_addr := 0, num_entries := 2, entry_size := 16,
    phys_addresses := [0, 16], free_stack := [] }

def poolC2 : Mempool :=
  { base_addr := 0, num_entries := 2, entry_size := 4,
    phys_addresses := [0, 4], free_stack := [0, 1] }

def pktC2 : Packet := { addr_virt := 4, addr_phys := 4, len := 3, pool_entry := 1 }

def poolC2b : Mempool :=
  { base_addr := 0, num_entries := 2, entry_size := 4,
    phys_addresses := [0, 4], free_stack := [0] }

/-- Repeatedly pop the free stack `k` times, collecting the returned indices. -/
def drainAll : Mempool → Nat → List Nat × Mempool
  | p, 0 => ([], p)
  | p, k + 1 =>
    match p.alloc_buf with
    | (some i, p') =>
      let r := drainAll p' k
      (i :: r.1, r.2)
    | (none, p') => ([], p')

def poolC10 : Mempool :=
  { base_addr := 0, num_entries := 3, entry_size := 4,
    phys_addresses := [0, 4, 8], free_stack := [0, 1, 2] }

def poolC4 : Mempool :=
  { base_addr := 0, num_entries := 1, entry_size := 2048,
    phys_addresses := [0], free_stack := [0] }

def poolC4w : Mempool :=
  { base_addr := 0, num_entries := 2, entry_size := 2048,
    phys_addresses := [0, 2048], free_stack := [0, 1] }

def poolC5 : Mempool :=
  { base_addr := 0, num_entries := 1, entry_size := 2048,
    phys_addresses := [0], free_stack := [0] }

def memC9 : Nat → Nat := fun _ => 7

def poolC9 : Mempool :=
  { base_addr := 0, num_entries := 1, entry_size := 512,
    phys_addresses := [0], free_stack := [0] }

def memC9b : Nat → Nat := memset memC9 0 (1 * 512) 0x00

/-- The Address Translator algorithm in the spec's words: locate the pagemap
record at offset `(addr / pagesize) * record_size`, take the low 55 bits of
the little-endian record as the physical frame number, and return
`frame * pagesize + (addr mod pagesize)`; failure to open or read is an
error. -/
def virtToPhysSpecModel (pagesize : Nat) (env : PagemapEnv) (addr : Nat) :
    Except Unit Nat :=
  if env.openOk then
    match env.readAt (addr / pagesize * recordSize) with
    | some buffer => .ok ((leValue buffer % 2 ^ 55) * pagesize + addr % pagesize)
    | none => .error ()
  else
    .error ()

def envC7 : PagemapEnv :=
  { openOk := true
    readAt := fun off => if off = 8 then some [1, 0, 0, 0, 0, 0, 0, 0] else none }

def poolC8 : Mempool :=
  { base_addr := 0, num_entries := 2, entry_size := 4,
    phys_addresses := [0, 4], free_stack := [1] }

def selfC8 : Packet := { addr_virt := 0, addr_phys := 0, len := 3, pool_entry := 0 }

def memC8 : Nat → Nat := fun a => a + 10

def pktC8 : Packet := { addr_virt := 4, addr_phys := 4, len := 3, pool_entry := 1 }

def poolC8b : Mempool :=
  { base_addr := 0, num_entries := 2, entry_size := 4,
    phys_addresses := [0, 4], free_stack := [] }

def memC8b : Nat → Nat := clone_from_slice memC8 4 0 3

theorem alloc_pkt_of_empty (pool : Mempool) (s : Nat) (h : pool.free_stack = []) :
    alloc_pkt pool s = (none, pool) := by
  obtain ⟨b, n, es, ph, fs⟩ := pool
  simp only at h
  subst h
  simp [alloc_pkt, Mempool.alloc_buf]

theorem alloc_pkt_of_oversize (pool : Mempool) (s : Nat) (h : pool.entry_size < s) :
    alloc_pkt pool s = (none, pool) := by
  simp [alloc_pkt, h]

theorem alloc_pkt_of_concat (pool : Mempool) (s : Nat) (l : List Nat) (a : Nat)
    (hs : s ≤ pool.entry_size) (h : pool.free_stack = l ++ [a]) :
    alloc_pkt pool s =
      (some { addr_virt := pool.get_virt_addr a
              addr_phys := pool.get_phys_addr a
              len := s
              pool_entry := a },
       { pool with free_stack := l }) := by
  obtain ⟨b, n, es, ph, fs⟩ := pool
  simp only at h hs
  subst h
  simp [alloc_pkt, Mempool.alloc_buf, Nat.not_lt.mpr hs]

/-- Inversion for a successful `alloc_pkt`. -/
theorem alloc_pkt_some_inv (pool : Mempool) (s : Nat) (p : Packet) (pool' : Mempool)
    (h : alloc_pkt pool s = (some p, pool')) :
    s ≤ pool.entry_size ∧
    pool.free_stack = pool'.free_stack ++ [p.pool_entry] ∧
    pool' = { pool with free_stack := pool'.free_stack } ∧
    p.len = s ∧
    p.pool_entry ∈ pool.free_stack ∧
    p.addr_virt = pool.get_virt_addr p.pool_entry := by
  rcases List.eq_nil_or_concat pool.free_stack with hfs | ⟨l, a, hfs⟩
  · rw [alloc_pkt_of_empty pool s hfs] at h
    exact absurd (congrArg Prod.fst h) (by simp)
  · rw [List.concat_eq_append] at hfs
    by_cases hs : s ≤ pool.entry_size
    · rw [alloc_pkt_of_concat pool s l a hs hfs] at h
      have h1 := congrArg Prod.fst h
      have h2 := congrArg Prod.snd h
      simp only [Option.some.injEq] at h1
      simp only at h2
      subst h1
      subst h2
      exact ⟨hs, hfs, rfl, rfl, by rw [hfs]; simp, rfl⟩
    · rw [alloc_pkt_of_oversize pool s (Nat.lt_of_not_le hs)] at h
      exact absurd (congrArg Prod.fst h) (by simp)

/-- Failure characterization: `alloc_pkt` fails exactly on an oversized request or an empty free list. -/
theorem alloc_pkt_none_char (pool : Mempool) (s : Nat) :
    (alloc_pkt pool s).1 = none ↔ pool.entry_size < s ∨ pool.free_stack = [] := by
  constructor
  · intro h
    by_contra hcon
    push_neg at hcon
    obtain ⟨hs, hne⟩ := hcon
    rcases List.eq_nil_or_concat pool.free_stack with hfs | ⟨l, a, hfs⟩
    · exact hne hfs
    · rw [List.concat_eq_append] at hfs
      rw [alloc_pkt_of_concat pool s l a hs hfs] at h
      simp at h
  · intro h
    rcases h with h | h
    · rw [alloc_pkt_of_oversize pool s h]
    · rw [alloc_pkt_of_empty pool s h]

/-- Reading memory after `memset`: value inside the written range, the old
byte outside it. -/
theorem memset_read (mem : Nat → Nat) (addr len value a : Nat) :
    memset mem addr len value a =
      if addr ≤ a ∧ a < addr + len then value else mem a := by
  induction len generalizing mem with
  | zero =>
    simp only [memset, List.range_zero, List.foldl_nil]
    rw [if_neg (by omega)]
  | succ n ih =>
    unfold memset
    rw [List.range_succ, List.foldl_append]
    show writeByte (memset mem addr n value) (addr + n) value a = _
    unfold writeByte
    by_cases ha : a = addr + n
    · rw [if_pos ha, if_pos (by omega)]
    · rw [if_neg ha, ih]
      by_cases hin : addr ≤ a ∧ a < addr + n
      · rw [if_pos hin, if_pos ⟨hin.1, by omega⟩]
      · rw [if_neg hin, if_neg (by omega)]

/-- A failed `alloc_pkt` leaves the pool untouched (both the oversize early
return and the pop from an empty `Vec`). -/
theorem alloc_pkt_none_inv (pool : Mempool) (s : Nat) (pool' : Mempool)
    (h : alloc_pkt pool s = (none, pool')) : pool' = pool := by
  rcases List.eq_nil_or_concat pool.free_stack with hfs | ⟨l, a, hfs⟩
  · rw [alloc_pkt_of_empty pool s hfs] at h
    exact (congrArg Prod.snd h).symm
  · rw [List.concat_eq_append] at hfs
    by_cases hs : s ≤ pool.entry_size
    · rw [alloc_pkt_of_concat pool s l a hs hfs] at h
      exact absurd (congrArg Prod.fst h) (by simp)
    · rw [alloc_pkt_of_oversize pool s (Nat.lt_of_not_le hs)] at h
      exact (congrArg Prod.snd h).symm

/-- One step preserves the ownership invariant and the pool capacity. -/
theorem stepOp_inv (s : TraceState) (op : PoolOp) (h : PoolInv s) :
    PoolInv (stepOp s op) ∧ (stepOp s op).pool.num_entries = s.pool.num_entries := by
  obtain ⟨hfree, hlive, hdisj, huniv⟩ := h
  cases op with
  | checkout size =>
    simp only [stepOp]
    split
    next p pool' heq =>
      obtain ⟨hs, hconcat, hpool', hlen, hmemfs, havirt⟩ := alloc_pkt_some_inv _ _ _ _ heq
      have hfree' : (pool'.free_stack ++ [p.pool_entry]).Nodup := hconcat ▸ hfree
      have hl : pool'.free_stack.Nodup := hfree'.of_append_left
      have hanotl : p.pool_entry ∉ pool'.free_stack := by
        intro hmem
        exact (List.nodup_append.mp hfree').2.2 hmem (by simp)
      have hanotlive : p.pool_entry ∉ s.live := hdisj _ hmemfs
      refine ⟨⟨hl, List.nodup_cons.mpr ⟨hanotlive, hlive⟩, ?_, ?_⟩, ?_⟩
      · intro x hx
        have hxfs : x ∈ s.pool.free_stack := by rw [hconcat]; exact List.mem_append_left _ hx
        have hxne : x ≠ p.pool_entry := fun hxe => hanotl (hxe ▸ hx)
        simp only [List.mem_cons, not_or]
        exact ⟨hxne, hdisj _ hxfs⟩
      · have hm : ∀ x, x ∈ pool'.free_stack ++ p.pool_entry :: s.live ↔
            x ∈ s.pool.free_stack ++ s.live := by
          intro x
          rw [hconcat]
          simp only [List.mem_append, List.mem_cons]
          tauto
        have hn : pool'.num_entries = s.pool.num_entries := by rw [hpool']
        rw [show ({ pool := pool', live := p.pool_entry :: s.live } : TraceState).pool = pool'
              from rfl]
        ext x
        rw [List.mem_toFinset, hm x, ← List.mem_toFinset, huniv, hn]
      · rw [hpool']
    next pool' heq =>
      have hp := alloc_pkt_none_inv _ _ _ heq
      subst hp
      exact ⟨⟨hfree, hlive, hdisj, huniv⟩, rfl⟩
  | release i =>
    simp only [stepOp]
    by_cases hi : i ∈ s.live
    · rw [if_pos hi]
      refine ⟨⟨?_, hlive.erase i, ?_, ?_⟩, rfl⟩
      · refine List.nodup_append.mpr ⟨hfree, List.nodup_singleton i, ?_⟩
        intro x hx hxi
        rw [List.mem_singleton] at hxi
        exact hdisj x hx (hxi ▸ hi)
      · intro x hx
        rcases List.mem_append.mp hx with hxf | hxi
        · intro hxe
          exact hdisj x hxf (List.mem_of_mem_erase hxe)
        · rw [List.mem_singleton] at hxi
          subst hxi
          intro hxe
          exact ((hlive.mem_erase_iff).mp hxe).1 rfl
      · have hm : ∀ x, x ∈ (s.pool.free_stack ++ [i]) ++ s.live.erase i ↔
            x ∈ s.pool.free_stack ++ s.live := by
          intro x
          simp only [List.mem_append, List.mem_singleton, hlive.mem_erase_iff]
          constructor
          · rintro ((hx | rfl) | ⟨hne, hx⟩)
            · exact Or.inl hx
            · exact Or.inr hi
            · exact Or.inr hx
          · rintro (hx | hx)
            · exact Or.inl (Or.inl hx)
            · by_cases hxe : x = i
              · exact Or.inl (Or.inr hxe)
              · exact Or.inr ⟨hxe, hx⟩
        show ((s.pool.free_stack ++ [i]) ++ s.live.erase i).toFinset =
          Finset.range s.pool.num_entries
        ext x
        rw [List.mem_toFinset, hm x, ← List.mem_toFinset, huniv]
    · rw [if_neg hi]
      exact ⟨⟨hfree, hlive, hdisj, huniv⟩, rfl⟩

/-- Running any operation sequence preserves the invariant and the capacity. -/
theorem runOps_inv (s : TraceState) (ops : List PoolOp) (h : PoolInv s) :
    PoolInv (runOps s ops) ∧ (runOps s ops).pool.num_entries = s.pool.num_entries := by
  induction ops generalizing s with
  | nil => exact ⟨h, rfl⟩
  | cons op ops ih =>
    have h1 := stepOp_inv s op h
    have h2 := ih (stepOp s op) h1.1
    exact ⟨h2.1, h2.2.trans h1.2⟩

/-- Counting consequence of the invariant. -/
theorem PoolInv_length (s : TraceState) (h : PoolInv s) :
    s.pool.free_stack.length + s.live.length = s.pool.num_entries := by
  obtain ⟨hfree, hlive, hdisj, huniv⟩ := h
  have hnd : (s.pool.free_stack ++ s.live).Nodup :=
    List.nodup_append.mpr ⟨hfree, hlive, hdisj⟩
  have hc := List.toFinset_card_of_nodup hnd
  rw [huniv, Finset.card_range] at hc
  simpa [List.length_append] using hc.symm

/-- Checkout from a state satisfying the invariant never returns an index a
live handle holds. -/
theorem PoolInv_no_live_checkout (s : TraceState) (h : PoolInv s) (size : Nat)
    (p : Packet) (pool' : Mempool)
    (hp : alloc_pkt s.pool size = (some p, pool')) :
    p.pool_entry ∉ s.live :=
  h.2.2.1 _ (alloc_pkt_some_inv _ _ _ _ hp).2.2.2.2.1

/-- Claim C1: Starting from a freshly allocated pool (free list `0..num_entries`,
no live packets), after every sequence of checkout (`alloc_pkt`/`alloc_buf`)
and release (`Packet::drop` → `free_buf`) operations: the free list and the
live indices are duplicate-free and disjoint, together they are exactly
`{0 .. num_entries}`, their sizes sum to `num_entries`, and a further checkout
can never return an index a live handle still holds. -/
theorem pool_partition_invariant (pool : Mempool) (ops : List PoolOp)
    (hfresh : pool.free_stack = List.range pool.num_entries) :
    PoolInv (runOps (freshState pool) ops) ∧
    (runOps (freshState pool) ops).pool.free_stack.length +
      (runOps (freshState pool) ops).live.length = pool.num_entries ∧
    ∀ size p pool₂,
      alloc_pkt (runOps (freshState pool) ops).pool size = (some p, pool₂) →
      p.pool_entry ∉ (runOps (freshState pool) ops).live := by
  have hinit : PoolInv (freshState pool) := by
    refine ⟨?_, List.nodup_nil, ?_, ?_⟩
    · show pool.free_stack.Nodup
      rw [hfresh]
      exact List.nodup_range _
    · intro a _
      simp [freshState]
    · show (pool.free_stack ++ []).toFinset = Finset.range pool.num_entries
      rw [List.append_nil, hfresh]
      ext x
      simp
  obtain ⟨hI, hN⟩ := runOps_inv (freshState pool) ops hinit
  refine ⟨hI, ?_, fun size p pool₂ hp => PoolInv_no_live_checkout _ hI size p pool₂ hp⟩
  have hl := PoolInv_length _ hI
  rw [hN] at hl
  exact hl

/-- Witness for C1 at a concrete two-entry pool and one checkout. -/
theorem pool_partition_invariant_witness :
    PoolInv (runOps (freshState poolC1) [PoolOp.checkout 10]) ∧
    (runOps (freshState poolC1) [PoolOp.checkout 10]).pool.free_stack.length +
      (runOps (freshState poolC1) [PoolOp.checkout 10]).live.length = poolC1.num_entries ∧
    pktC1.pool_entry ∉ (runOps (freshState poolC1) [PoolOp.checkout 10]).live :=
  ⟨(pool_partition_invariant poolC1 [PoolOp.checkout 10] (by decide)).1,
   (pool_partition_invariant poolC1 [PoolOp.checkout 10] (by decide)).2.1,
   (pool_partition_invariant poolC1 [PoolOp.checkout 10] (by decide)).2.2 5 pktC1 poolC1b
     (by decide)⟩

/-- Claim C2: `alloc_pkt(pool, size)` returns `None` exactly when the request is
oversized or the free list is empty; an oversized request leaves the pool (in
particular its free list) unchanged; a successful allocation returns a packet
of logical length `size` holding the index popped off the end of the free
list. -/
theorem alloc_pkt_spec (pool : Mempool) (size : Nat) :
    ((alloc_pkt pool size).1 = none ↔ pool.entry_size < size ∨ pool.free_stack = []) ∧
    (pool.entry_size < size → (alloc_pkt pool size).2 = pool) ∧
    ∀ p pool', alloc_pkt pool size = (some p, pool') →
      p.len = size ∧ pool.free_stack = pool'.free_stack ++ [p.pool_entry] := by
  refine ⟨alloc_pkt_none_char pool size, ?_, ?_⟩
  · intro h
    rw [alloc_pkt_of_oversize pool size h]
  · intro p pool' h
    have hinv := alloc_pkt_some_inv _ _ _ _ h
    exact ⟨hinv.2.2.2.1, hinv.2.1⟩

/-- Witness for C2: an oversized request fails without touching the pool; a
successful request has the requested length and pops the top free index. -/
theorem alloc_pkt_spec_witness :
    (alloc_pkt poolC2 9).1 = none ∧ (alloc_pkt poolC2 9).2 = poolC2 ∧
    pktC2.len = 3 ∧ poolC2.free_stack = poolC2b.free_stack ++ [pktC2.pool_entry] :=
  ⟨(alloc_pkt_spec poolC2 9).1.mpr (Or.inl (by decide)),
   (alloc_pkt_spec poolC2 9).2.1 (by decide),
   ((alloc_pkt_spec poolC2 3).2.2 pktC2 poolC2b (by decide)).1,
   ((alloc_pkt_spec poolC2 3).2.2 pktC2 poolC2b (by decide)).2⟩

/-- Claim C3, counterexample: the rounding is computed in `usize`, so at
`size = usize::MAX = 2^64 - 1` (not a multiple of 2 MiB) the expression
`((size >> 21) + 1) << 21` is `2^43 << 21`, which wraps to 0: the mapped
length is 0, which is neither ≥ `size` nor the smallest 2 MiB multiple
≥ `size` — the claim fails for sizes in the last partial huge page of the
`usize` range. -/
theorem dma_round_size_wrap_counterexample :
    (2 ^ 64 - 1) % HUGE_PAGE_SIZE ≠ 0 ∧
    dmaRoundSize (2 ^ 64 - 1) = 0 ∧
    ¬(2 ^ 64 - 1 ≤ dmaRoundSize (2 ^ 64 - 1)) := by decide

/-- Claim C3, amended: `Dma::allocate` computes the mapped length in `usize`.
The result is always a multiple of the 2 MiB huge-page size; it equals `size`
when `size` is a multiple; for a non-multiple `size < 2^64 - 2^21` it equals
`((size >> 21) + 1) << 21`, the smallest multiple of 2 MiB that is ≥ `size`
(so 1 byte yields 2 MiB, exactly 2 MiB yields 2 MiB, 2 MiB + 1 yields 4 MiB);
for a non-multiple `size ≥ 2^64 - 2^21` the shift wraps modulo `2^64` and the
mapped length is 0. -/
theorem dma_allocate_size_rounding_usize (size : Nat) (hsz : size < 2 ^ 64) :
    dmaRoundSize size % HUGE_PAGE_SIZE = 0 ∧
    (size % HUGE_PAGE_SIZE = 0 → dmaRoundSize size = size) ∧
    (size % HUGE_PAGE_SIZE ≠ 0 → size < 2 ^ 64 - 2 ^ 21 →
      size ≤ dmaRoundSize size ∧
      (∀ m, m % HUGE_PAGE_SIZE = 0 → size ≤ m → dmaRoundSize size ≤ m) ∧
      dmaRoundSize size = ((size >>> HUGE_PAGE_BITS) + 1) <<< HUGE_PAGE_BITS) ∧
    (size % HUGE_PAGE_SIZE ≠ 0 → 2 ^ 64 - 2 ^ 21 ≤ size → dmaRoundSize size = 0) := by
  have hH : HUGE_PAGE_SIZE = 2097152 := by decide
  by_cases h : size % HUGE_PAGE_SIZE = 0
  · have hr : dmaRoundSize size = size := by simp [dmaRoundSize, h]
    rw [hr]
    exact ⟨h, fun _ => rfl, fun hc _ => absurd h hc, fun hc _ => absurd h hc⟩
  · have hr : dmaRoundSize size =
        ((size / 2097152 + 1) * 2097152) % 18446744073709551616 := by
      simp only [dmaRoundSize, if_pos h, Nat.shiftLeft_eq, Nat.shiftRight_eq_div_pow,
        HUGE_PAGE_BITS, USIZE_MOD]
      norm_num
    have hmod : size % 2097152 ≠ 0 := by rw [← hH]; exact h
    have hsz2 : size < 18446744073709551616 := by
      have : (2 : Nat) ^ 64 = 18446744073709551616 := by norm_num
      omega
    refine ⟨?_, fun hc => absurd hc h, ?_, ?_⟩
    · rw [hr, hH]
      omega
    · intro _ hlo
      have hlo2 : size < 18446744073709551616 - 2097152 := by
        have h1 : (2 : Nat) ^ 64 = 18446744073709551616 := by norm_num
        have h2 : (2 : Nat) ^ 21 = 2097152 := by norm_num
        omega
      have hfit : (size / 2097152 + 1) * 2097152 < 18446744073709551616 := by omega
      rw [hr, Nat.mod_eq_of_lt hfit]
      refine ⟨by omega, ?_, ?_⟩
      · intro m hm0 hsm
        rw [hH] at hm0
        omega
      · have hr2 : ((size >>> HUGE_PAGE_BITS) + 1) <<< HUGE_PAGE_BITS =
            (size / 2097152 + 1) * 2097152 := by
          simp only [Nat.shiftLeft_eq, Nat.shiftRight_eq_div_pow, HUGE_PAGE_BITS]
        rw [hr2]
    · intro _ hhi
      have hhi2 : 18446744073709551616 - 2097152 ≤ size := by
        have h1 : (2 : Nat) ^ 64 = 18446744073709551616 := by norm_num
        have h2 : (2 : Nat) ^ 21 = 2097152 := by norm_num
        omega
      rw [hr]
      omega

/-- Witness for the amended C3: 1 byte rounds to 2 MiB, 2 MiB stays 2 MiB,
2 MiB + 1 rounds to a 2 MiB multiple between 2 MiB + 1 and 4 MiB (hence
4 MiB), and `usize::MAX` wraps to 0. -/
theorem dma_allocate_size_rounding_usize_witness :
    dmaRoundSize 2097152 = 2097152 ∧
    dmaRoundSize 1 ≤ 2097152 ∧
    dmaRoundSize 2097153 % HUGE_PAGE_SIZE = 0 ∧
    2097153 ≤ dmaRoundSize 2097153 ∧
    dmaRoundSize 2097153 ≤ 4194304 ∧
    dmaRoundSize (2 ^ 64 - 1) = 0 :=
  ⟨(dma_allocate_size_rounding_usize 2097152 (by decide)).2.1 (by decide),
   ((dma_allocate_size_rounding_usize 1 (by decide)).2.2.1 (by decide) (by decide)).2.1
     2097152 (by decide) (by decide),
   (dma_allocate_size_rounding_usize 2097153 (by decide)).1,
   ((dma_allocate_size_rounding_usize 2097153 (by decide)).2.2.1 (by decide) (by decide)).1,
   ((dma_allocate_size_rounding_usize 2097153 (by decide)).2.2.1 (by decide) (by decide)).2.1
     4194304 (by decide) (by decide),
   (dma_allocate_size_rounding_usize (2 ^ 64 - 1) (by decide)).2.2.2 (by decide) (by decide)⟩

/-- Draining a pool whose free stack is `l` returns `l` reversed (pops come
from the end) and empties the stack. -/
theorem drainAll_reverse (l : List Nat) (p : Mempool) (h : p.free_stack = l) :
    drainAll p l.length = (l.reverse, { p with free_stack := [] }) := by
  induction l using List.reverseRecOn generalizing p with
  | nil =>
    obtain ⟨b, n, es, ph, fs⟩ := p
    simp only at h
    subst h
    rfl
  | append_singleton l a ih =>
    have hab : p.alloc_buf = (some a, { p with free_stack := l }) := by
      obtain ⟨b, n, es, ph, fs⟩ := p
      simp only at h
      subst h
      simp [Mempool.alloc_buf]
    rw [List.length_append, List.length_singleton]
    show drainAll p (l.length + 1) = _
    unfold drainAll
    rw [hab]
    simp only
    rw [ih { p with free_stack := l } rfl]
    simp [List.reverse_append]

/-- Claim C10: The free list is a LIFO stack: a pop returns the last pushed
index (in particular the index just released by `free_buf`), and draining a
freshly filled pool returns `num_entries - 1, ..., 1, 0` in descending
order. -/
theorem free_stack_lifo (p q : Mempool) (i : Nat) (l : List Nat) (a : Nat)
    (hq : q.free_stack = List.range q.num_entries) :
    (p.free_buf i).alloc_buf = (some i, p) ∧
    (p.free_stack = l ++ [a] → p.alloc_buf = (some a, { p with free_stack := l })) ∧
    (drainAll q q.num_entries).1 = (List.range q.num_entries).reverse := by
  refine ⟨?_, ?_, ?_⟩
  · obtain ⟨b, n, es, ph, fs⟩ := p
    simp [Mempool.free_buf, Mempool.alloc_buf]
  · intro h
    obtain ⟨b, n, es, ph, fs⟩ := p
    simp only at h
    subst h
    simp [Mempool.alloc_buf]
  · have hd := drainAll_reverse (List.range q.num_entries) q hq
    rw [List.length_range] at hd
    rw [hd]

/-- Witness for C10 at a three-entry pool. -/
theorem free_stack_lifo_witness :
    (poolC10.free_buf 7).alloc_buf = (some 7, poolC10) ∧
    (drainAll poolC10 poolC10.num_entries).1 = (List.range poolC10.num_entries).reverse ∧
    poolC10.alloc_buf = (some 2, { poolC10 with free_stack := [0, 1] }) :=
  ⟨(free_stack_lifo poolC10 poolC10 7 [0, 1] 2 (by decide)).1,
   (free_stack_lifo poolC10 poolC10 7 [0, 1] 2 (by decide)).2.2,
   (free_stack_lifo poolC10 poolC10 7 [0, 1] 2 (by decide)).2.1 (by decide)⟩

/-! ## Batch allocation -/

theorem batchGo_succ_some (fuel : Nat) (pool pool' : Mempool) (p : Packet)
    (buf : List Packet) (k n s : Nat) (hap : alloc_pkt pool s = (some p, pool')) :
    batchGo (fuel + 1) pool buf k n s =
      if k + 1 ≥ n then (k + 1, buf ++ [p], pool')
      else batchGo fuel pool' (buf ++ [p]) (k + 1) n s := by
  have hstep : batchGo (fuel + 1) pool buf k n s =
      match alloc_pkt pool s with
      | (some p, pool') =>
        if k + 1 ≥ n then (k + 1, buf ++ [p], pool')
        else batchGo fuel pool' (buf ++ [p]) (k + 1) n s
      | (none, pool') => (k, buf, pool') := rfl
  rw [hstep, hap]

theorem batchGo_succ_none (fuel : Nat) (pool pool' : Mempool)
    (buf : List Packet) (k n s : Nat) (hap : alloc_pkt pool s = (none, pool')) :
    batchGo (fuel + 1) pool buf k n s = (k, buf, pool') := by
  have hstep : batchGo (fuel + 1) pool buf k n s =
      match alloc_pkt pool s with
      | (some p, pool') =>
        if k + 1 ≥ n then (k + 1, buf ++ [p], pool')
        else batchGo fuel pool' (buf ++ [p]) (k + 1) n s
      | (none, pool') => (k, buf, pool') := rfl
  rw [hstep, hap]

/-- The loop appends exactly as many packets as the difference between the
final and initial counters. -/
theorem batchGo_buffer (fuel : Nat) :
    ∀ (pool : Mempool) (buf : List Packet) (k n s : Nat),
      ∃ tl, (batchGo fuel pool buf k n s).2.1 = buf ++ tl ∧
        tl.length + k = (batchGo fuel pool buf k n s).1 := by
  induction fuel with
  | zero =>
    intro pool buf k n s
    exact ⟨[], by simp [batchGo], by simp [batchGo]⟩
  | succ fuel ih =>
    intro pool buf k n s
    rcases hap : alloc_pkt pool s with ⟨o, pool'⟩
    cases o with
    | none =>
      rw [batchGo_succ_none fuel pool pool' buf k n s hap]
      exact ⟨[], by simp, by simp⟩
    | some p =>
      rw [batchGo_succ_some fuel pool pool' p buf k n s hap]
      by_cases hk : k + 1 ≥ n
      · rw [if_pos hk]
        exact ⟨[p], by simp, by simp [Nat.add_comm]⟩
      · rw [if_neg hk]
        obtain ⟨tl, h1, h2⟩ := ih pool' (buf ++ [p]) (k + 1) n s
        refine ⟨p :: tl, ?_, ?_⟩
        · rw [h1]
          simp
        · rw [← h2]
          simp
          omega

/-- The counter never exceeds `max num_packets (k + 1)`: the `>=` break is
checked only after a packet has been appended. -/
theorem batchGo_le (fuel : Nat) :
    ∀ (pool : Mempool) (buf : List Packet) (k n s : Nat),
      (batchGo fuel pool buf k n s).1 ≤ max n (k + 1) := by
  induction fuel with
  | zero =>
    intro pool buf k n s
    simp only [batchGo]
    omega
  | succ fuel ih =>
    intro pool buf k n s
    rcases hap : alloc_pkt pool s with ⟨o, pool'⟩
    cases o with
    | none =>
      rw [batchGo_succ_none fuel pool pool' buf k n s hap]
      simp only
      omega
    | some p =>
      rw [batchGo_succ_some fuel pool pool' p buf k n s hap]
      by_cases hk : k + 1 ≥ n
      · rw [if_pos hk]
        simp only
        omega
      · rw [if_neg hk]
        have hle := ih pool' (buf ++ [p]) (k + 1) n s
        omega

/-- With enough fuel, a pool with fewer free entries than still-wanted packets
is drained completely: the loop stops at the first failed allocation. -/
theorem batchGo_exhaust (fuel : Nat) :
    ∀ (pool : Mempool) (buf : List Packet) (k n s : Nat),
      pool.free_stack.length < fuel → s ≤ pool.entry_size →
      k + pool.free_stack.length < n →
      (batchGo fuel pool buf k n s).1 = k + pool.free_stack.length ∧
      (batchGo fuel pool buf k n s).2.2.free_stack = [] := by
  induction fuel with
  | zero =>
    intro pool buf k n s hf _ _
    omega
  | succ fuel ih =>
    intro pool buf k n s hf hs hk
    rcases List.eq_nil_or_concat pool.free_stack with hfs | ⟨l, a, hfs⟩
    · rw [batchGo_succ_none fuel pool pool buf k n s (alloc_pkt_of_empty pool s hfs)]
      simp [hfs]
    · rw [List.concat_eq_append] at hfs
      have hap := alloc_pkt_of_concat pool s l a hs hfs
      rw [batchGo_succ_some fuel pool { pool with free_stack := l }
            { addr_virt := pool.get_virt_addr a, addr_phys := pool.get_phys_addr a,
              len := s, pool_entry := a } buf k n s hap]
      have hlen : pool.free_stack.length = l.length + 1 := by
        rw [hfs]
        simp
      rw [if_neg (by omega)]
      have hih := ih { pool with free_stack := l }
          (buf ++ [{ addr_virt := pool.get_virt_addr a, addr_phys := pool.get_phys_addr a,
                     len := s, pool_entry := a }]) (k + 1) n s
          (show l.length < fuel by omega) hs (show k + 1 + l.length < n by omega)
      rw [show ({ pool with free_stack := l } : Mempool).free_stack = l from rfl] at hih
      refine ⟨?_, hih.2⟩
      rw [hih.1]
      omega

/-- Claim C4, counterexample: `alloc_pkt_batch` with `num_packets = 0` on a pool
holding one free entry appends one packet and returns 1, not 0: the loop
tests `allocated >= num_packets` only after pushing each packet, so the claim
that it appends at most `num_packets` packets (and nothing for
`num_packets = 0`) fails. -/
theorem alloc_pkt_batch_zero_counterexample :
    (alloc_pkt_batch poolC4 [] 0 64).1 = 1 ∧
    (alloc_pkt_batch poolC4 [] 0 64).2.1.length = 1 := by decide

/-- Claim C4, amended: `alloc_pkt_batch` appends exactly the number of packets
it returns, at most `max num_packets 1`; it stops at the first failed
single-packet allocation, so on a pool with `k < num_packets` free entries
(and an admissible size) it returns `k` and leaves the free list empty; and
whenever a first packet is available it appends at least one packet, even for
`num_packets = 0`. -/
theorem alloc_pkt_batch_spec (pool : Mempool) (buf : List Packet) (n s : Nat) :
    (∃ tl, (alloc_pkt_batch pool buf n s).2.1 = buf ++ tl ∧
       tl.length = (alloc_pkt_batch pool buf n s).1) ∧
    (alloc_pkt_batch pool buf n s).1 ≤ max n 1 ∧
    (s ≤ pool.entry_size → pool.free_stack.length < n →
      (alloc_pkt_batch pool buf n s).1 = pool.free_stack.length ∧
      (alloc_pkt_batch pool buf n s).2.2.free_stack = []) ∧
    (s ≤ pool.entry_size → pool.free_stack ≠ [] →
      1 ≤ (alloc_pkt_batch pool buf n s).1) := by
  unfold alloc_pkt_batch
  refine ⟨?_, ?_, ?_, ?_⟩
  · obtain ⟨tl, h1, h2⟩ := batchGo_buffer (pool.free_stack.length + 1) pool buf 0 n s
    exact ⟨tl, h1, by omega⟩
  · have := batchGo_le (pool.free_stack.length + 1) pool buf 0 n s
    omega
  · intro hs hn
    have := batchGo_exhaust (pool.free_stack.length + 1) pool buf 0 n s
        (by omega) hs (by omega)
    refine ⟨?_, this.2⟩
    rw [this.1]
    omega
  · intro hs hne
    rcases List.eq_nil_or_concat pool.free_stack with hfs | ⟨l, a, hfs⟩
    · exact absurd hfs hne
    · rw [List.concat_eq_append] at hfs
      have hap := alloc_pkt_of_concat pool s l a hs hfs
      rw [batchGo_succ_some pool.free_stack.length pool { pool with free_stack := l }
            { addr_virt := pool.get_virt_addr a, addr_phys := pool.get_phys_addr a,
              len := s, pool_entry := a } buf 0 n s hap]
      by_cases hk : 0 + 1 ≥ n
      · rw [if_pos hk]
      · rw [if_neg hk]
        simp only [Nat.zero_add]
        obtain ⟨tl, _, h2⟩ := batchGo_buffer pool.free_stack.length
            { pool with free_stack := l }
            (buf ++ [{ addr_virt := pool.get_virt_addr a, addr_phys := pool.get_phys_addr a,
                       len := s, pool_entry := a }]) 1 n s
        omega

/-- Witness for the amended C4: exhaustion on a two-entry pool with five
requested packets, the `max` bound, and the at-least-one behavior for
`num_packets = 0`. -/
theorem alloc_pkt_batch_spec_witness :
    (alloc_pkt_batch poolC4w [] 5 64).1 = poolC4w.free_stack.length ∧
    (alloc_pkt_batch poolC4w [] 5 64).2.2.free_stack = [] ∧
    (alloc_pkt_batch poolC4w [] 5 64).1 ≤ max 5 1 ∧
    1 ≤ (alloc_pkt_batch poolC4w [] 0 64).1 :=
  ⟨((alloc_pkt_batch_spec poolC4w [] 5 64).2.2.1 (by decide) (by decide)).1,
   ((alloc_pkt_batch_spec poolC4w [] 5 64).2.2.1 (by decide) (by decide)).2,
   (alloc_pkt_batch_spec poolC4w [] 5 64).2.1,
   (alloc_pkt_batch_spec poolC4w [] 0 64).2.2.2 (by decide) (by decide)⟩

/-! ## Release discipline, pool construction, address translation -/

theorem ite_ok_err_ne_panicked {α : Type} (c : Prop) [Decidable c] (x : α) :
    (if c then AllocResult.ok x else AllocResult.err) ≠ AllocResult.panicked := by
  split <;> simp

theorem ite_ok_err_eq_ok {α : Type} (c : Prop) [Decidable c] (x y : α)
    (h : (if c then AllocResult.ok x else AllocResult.err) = AllocResult.ok y) : x = y := by
  split at h
  · injection h
  · exact absurd h (by simp)

/-- Claim C5, counterexample: Index 0 is on the free list (not checked out), yet
releasing it via `free_buf` does not abort: `free_buf` is a total function
with no occupancy check, the call silently completes, and the free list then
holds index 0 twice — contradicting the claim of an immediate abort. -/
theorem free_buf_no_abort_counterexample :
    0 ∈ poolC5.free_stack ∧
    (poolC5.free_buf 0).free_stack = [0, 0] ∧
    (poolC5.free_buf 0).free_stack.count 0 = 2 := by decide

/-- Claim C5, amended: `free_buf` is an unconditional push: a release is never
reported as a recoverable result, and releasing an index that is not checked
out (e.g. one already free) silently completes and leaves the index present
twice in the free list — an unchecked caller contract, not a detected
abort. -/
theorem free_buf_unconditional_push (p : Mempool) (id : Nat) :
    (p.free_buf id).free_stack = p.free_stack ++ [id] ∧
    (id ∈ p.free_stack → 2 ≤ (p.free_buf id).free_stack.count id) := by
  refine ⟨rfl, ?_⟩
  intro h
  show 2 ≤ (p.free_stack ++ [id]).count id
  rw [List.count_append]
  have h1 : 0 < p.free_stack.count id := List.count_pos_iff.mpr h
  have h2 : List.count id [id] = 1 := by simp
  omega

/-- Witness for the amended C5 at a concrete pool. -/
theorem free_buf_unconditional_push_witness :
    (poolC5.free_buf 0).free_stack = poolC5.free_stack ++ [0] ∧
    2 ≤ (poolC5.free_buf 0).free_stack.count 0 :=
  ⟨(free_buf_unconditional_push poolC5 0).1,
   (free_buf_unconditional_push poolC5 0).2 (by decide)⟩

/-- Claim C6: `Mempool::allocate` treats `size = 0` as entry size 2048, and in
the no-IOMMU path panics exactly when the 2 MiB huge-page size is not a
multiple of the (defaulted) entry size; the check precedes the DMA
allocation, so the result is `panicked` for every `dmaOk`, including a
failing DMA step. -/
theorem mempool_allocate_entry_size_check (entries size : Nat) (dmaOk : Bool)
    (base : Nat) (physOf : Nat → Option Nat) (mem : Nat → Nat) :
    (Mempool.allocate entries 0 false dmaOk base physOf mem =
      Mempool.allocate entries 2048 false dmaOk base physOf mem) ∧
    (Mempool.allocate entries size false dmaOk base physOf mem = .panicked ↔
      HUGE_PAGE_SIZE % (if size = 0 then 2048 else size) ≠ 0) := by
  have hm : (match size with | 0 => 2048 | x => x) = if size = 0 then 2048 else size := by
    cases size <;> rfl
  refine ⟨rfl, ?_⟩
  by_cases hdiv : HUGE_PAGE_SIZE % (if size = 0 then 2048 else size) = 0
  · have hne : Mempool.allocate entries size false dmaOk base physOf mem ≠ .panicked := by
      simp only [Mempool.allocate]
      rw [hm, if_neg (by simp [hdiv])]
      cases dmaOk with
      | false =>
        rw [if_pos (by simp)]
        simp
      | true =>
        rw [if_neg (by simp)]
        exact ite_ok_err_ne_panicked _ _
    exact ⟨fun h => absurd h hne, fun h => absurd hdiv h⟩
  · have heq : Mempool.allocate entries size false dmaOk base physOf mem = .panicked := by
      simp only [Mempool.allocate]
      rw [hm, if_pos ⟨by simp, hdiv⟩]
    exact ⟨fun _ => hdiv, fun _ => heq⟩

/-- Witness for C6: entry size 3000 aborts even with a failing DMA step (the
check precedes DMA allocation); entry size 512 does not abort. -/
theorem mempool_allocate_entry_size_check_witness :
    Mempool.allocate 4 3000 false false 0 (fun a => some a) (fun _ => 0) = .panicked ∧
    Mempool.allocate 4 512 false true 0 (fun a => some a) (fun _ => 0) ≠ .panicked :=
  ⟨(mempool_allocate_entry_size_check 4 3000 false 0 (fun a => some a) (fun _ => 0)).2.mpr
     (by decide),
   fun h => absurd
     ((mempool_allocate_entry_size_check 4 512 true 0 (fun a => some a) (fun _ => 0)).2.mp h)
     (by decide)⟩

/-- Claim C9: After a successful `Mempool::allocate`, every byte of the pool's
region — `num_entries * entry_size` bytes from the base address — reads
`0x00`: the `memset` performed at creation covers the whole region. -/
theorem mempool_allocate_zero_init (entries size : Nat) (vfio dmaOk : Bool)
    (base : Nat) (physOf : Nat → Option Nat) (mem : Nat → Nat)
    (pool : Mempool) (mem' : Nat → Nat)
    (h : Mempool.allocate entries size vfio dmaOk base physOf mem = .ok (pool, mem')) :
    pool.base_addr = base ∧ pool.num_entries = entries ∧
    ∀ a, pool.base_addr ≤ a →
      a < pool.base_addr + pool.num_entries * pool.entry_size → mem' a = 0x00 := by
  simp only [Mempool.allocate] at h
  split at h
  · exact absurd h (by simp)
  · split at h
    · exact absurd h (by simp)
    · have hp := ite_ok_err_eq_ok _ _ _ h
      rw [Prod.mk.injEq] at hp
      obtain ⟨hpool, hmem⟩ := hp
      subst hpool
      subst hmem
      refine ⟨rfl, rfl, ?_⟩
      intro a ha1 ha2
      rw [memset_read]
      rw [if_pos ⟨ha1, ha2⟩]

/-- Witness for C9: a fresh one-entry pool of entry size 512; byte 5 of its
region reads zero. -/
theorem mempool_allocate_zero_init_witness : memC9b 5 = 0x00 :=
  (mempool_allocate_zero_init 1 512 false true 0 (fun a => some a) memC9 poolC9 memC9b
    rfl).2.2 5 (by decide) (by decide)

/-- Claim C7: `virt_to_phys` refines the spec's algorithm: it reads the record
at byte offset `(addr / pagesize) * record_size` (`record_size` = 8, one
machine word), interprets it little-endian, and on success returns
`(r mod 2^55) * pagesize + addr mod pagesize` — the
`& 0x007f_ffff_ffff_ffff` mask keeps exactly the low 55 bits; open/seek/read
failures are returned as the error. -/
theorem virt_to_phys_correct (pagesize : Nat) (env : PagemapEnv) (addr : Nat) :
    virt_to_phys pagesize env addr = virtToPhysSpecModel pagesize env addr ∧
    (¬env.openOk → virt_to_phys pagesize env addr = .error ()) ∧
    (∀ buffer, env.openOk → env.readAt (addr / pagesize * recordSize) = some buffer →
      virt_to_phys pagesize env addr =
        .ok ((leValue buffer % 2 ^ 55) * pagesize + addr % pagesize)) ∧
    (env.openOk → env.readAt (addr / pagesize * recordSize) = none →
      virt_to_phys pagesize env addr = .error ()) := by
  have hmask : ∀ r : Nat, r &&& PFN_MASK = r % 2 ^ 55 := by
    intro r
    have hp : PFN_MASK = 2 ^ 55 - 1 := by decide
    rw [hp, Nat.and_pow_two_sub_one_eq_mod]
  have hrefine : virt_to_phys pagesize env addr = virtToPhysSpecModel pagesize env addr := by
    unfold virt_to_phys virtToPhysSpecModel
    by_cases ho : env.openOk
    · rw [if_neg (by simp [ho]), if_pos ho]
      rcases hr : env.readAt (addr / pagesize * recordSize) with _ | buffer
      · rfl
      · show Except.ok ((leValue buffer &&& PFN_MASK) * pagesize + addr % pagesize) =
          Except.ok (leValue buffer % 2 ^ 55 * pagesize + addr % pagesize)
        rw [hmask]
    · rw [if_pos (by simp [ho]), if_neg ho]
  refine ⟨hrefine, ?_, ?_, ?_⟩
  · intro ho
    rw [hrefine]
    unfold virtToPhysSpecModel
    rw [if_neg ho]
  · intro buffer ho hr
    rw [hrefine]
    unfold virtToPhysSpecModel
    rw [if_pos ho, hr]
  · intro ho hr
    rw [hrefine]
    unfold virtToPhysSpecModel
    rw [if_pos ho, hr]

/-- Witness for C7: page size 4096, address 4100 (page 1, offset 4), record
at offset 8 holding little-endian 1: physical address 4100. -/
theorem virt_to_phys_correct_witness :
    virt_to_phys 4096 envC7 4100 = .ok 4100 ∧
    virt_to_phys 4096 envC7 9000 = .error () :=
  ⟨((virt_to_phys_correct 4096 envC7 4100).2.2.1 [1, 0, 0, 0, 0, 0, 0, 0]
      (by decide) (by decide)).trans (by rfl),
   (virt_to_phys_correct 4096 envC7 9000).2.2.2 (by decide) (by decide)⟩

/-! ## Packet duplication -/

theorem clone_from_slice_inside (mem : Nat → Nat) (dst src len i : Nat) (h : i < len) :
    clone_from_slice mem dst src len (dst + i) = mem (src + i) := by
  unfold clone_from_slice
  rw [if_pos ⟨Nat.le_add_right _ _, by omega⟩]
  congr 1
  omega

theorem clone_from_slice_outside (mem : Nat → Nat) (dst src len a : Nat)
    (h : ¬(dst ≤ a ∧ a < dst + len)) :
    clone_from_slice mem dst src len a = mem a := by
  unfold clone_from_slice
  rw [if_neg h]

/-- Two packets over a pool read equal bytes under two memories that agree on
the packet's byte range. -/
theorem packetBytes_congr (m1 m2 : Nat → Nat) (p : Packet)
    (h : ∀ i, i < p.len → m1 (p.addr_virt + i) = m2 (p.addr_virt + i)) :
    packetBytes m1 p = packetBytes m2 p := by
  unfold packetBytes
  apply List.map_congr_left
  intro i hi
  exact h i (List.mem_range.mp hi)

/-- Byte ranges of length at most `entry_size` inside distinct entries never
overlap. -/
theorem get_virt_addr_ranges_disjoint (pool : Mempool) (len i j x : Nat)
    (hlen : len ≤ pool.entry_size) (hne : i ≠ j)
    (h1 : pool.get_virt_addr j ≤ x) (h2 : x < pool.get_virt_addr j + len) :
    ¬(pool.get_virt_addr i ≤ x ∧ x < pool.get_virt_addr i + len) := by
  unfold Mempool.get_virt_addr at *
  intro hcon
  rcases Nat.lt_or_ge i j with hij | hij
  · have hm : (i + 1) * pool.entry_size ≤ j * pool.entry_size :=
      Nat.mul_le_mul_right _ hij
    rw [Nat.succ_mul] at hm
    omega
  · have hij2 : j < i := Nat.lt_of_le_of_ne hij (fun hh => hne hh.symm)
    have hm : (j + 1) * pool.entry_size ≤ i * pool.entry_size :=
      Nat.mul_le_mul_right _ hij2
    rw [Nat.succ_mul] at hm
    omega

/-- Claim C8: Duplicating a live packet (`Clone` for `Packet`): on a pool with a
free entry the duplicate is drawn from the same pool (only the free list
changes) at a different entry index, its bytes equal the original's byte for
byte, the copy leaves the original's bytes untouched, and any later write
inside the duplicate's byte range leaves the original's bytes unchanged; on a
pool with no free entry duplication panics (`expect`), yielding nothing
rather than a partial success. -/
theorem packet_clone_spec (pool : Mempool) (mem : Nat → Nat) (self : Packet)
    (hlen : self.len ≤ pool.entry_size)
    (haddr : self.addr_virt = pool.get_virt_addr self.pool_entry)
    (hnotfree : self.pool_entry ∉ pool.free_stack) :
    (pool.free_stack = [] → self.clone pool mem = none) ∧
    ∀ p pool' mem', self.clone pool mem = some (p, pool', mem') →
      p.pool_entry ≠ self.pool_entry ∧
      p.pool_entry ∈ pool.free_stack ∧
      p.len = self.len ∧
      pool' = { pool with free_stack := pool'.free_stack } ∧
      packetBytes mem' p = packetBytes mem self ∧
      packetBytes mem' self = packetBytes mem self ∧
      ∀ k v, k < p.len →
        packetBytes (writeByte mem' (p.addr_virt + k) v) self = packetBytes mem' self := by
  constructor
  · intro hfs
    unfold Packet.clone
    rw [alloc_pkt_of_empty pool self.len hfs]
  · intro p pool' mem' hc
    rcases List.eq_nil_or_concat pool.free_stack with hfs | ⟨l, a, hfs⟩
    · unfold Packet.clone at hc
      rw [alloc_pkt_of_empty pool self.len hfs] at hc
      exact absurd hc (by simp)
    · rw [List.concat_eq_append] at hfs
      have hap := alloc_pkt_of_concat pool self.len l a hlen hfs
      unfold Packet.clone at hc
      rw [hap] at hc
      simp only [Option.some.injEq, Prod.mk.injEq] at hc
      obtain ⟨hp, hpool2, hmem2⟩ := hc
      subst hp
      subst hpool2
      subst hmem2
      have hamem : a ∈ pool.free_stack := by
        rw [hfs]
        simp
      have hane : a ≠ self.pool_entry := fun h => hnotfree (h ▸ hamem)
      refine ⟨hane, hamem, rfl, rfl, ?_, ?_, ?_⟩
      · show (List.range self.len).map
            (fun i => clone_from_slice mem (pool.get_virt_addr a) self.addr_virt self.len
              (pool.get_virt_addr a + i)) =
          (List.range self.len).map (fun i => mem (self.addr_virt + i))
        apply List.map_congr_left
        intro i hi
        exact clone_from_slice_inside mem (pool.get_virt_addr a) self.addr_virt self.len i
          (List.mem_range.mp hi)
      · apply packetBytes_congr
        intro j hj
        show clone_from_slice mem (pool.get_virt_addr a) self.addr_virt self.len
            (self.addr_virt + j) = mem (self.addr_virt + j)
        apply clone_from_slice_outside
        exact get_virt_addr_ranges_disjoint pool self.len a self.pool_entry
          (self.addr_virt + j) hlen hane
          (by rw [haddr]; exact Nat.le_add_right _ _)
          (by rw [haddr]; exact Nat.add_lt_add_left hj _)
      · intro k v hk
        have hk2 : k < self.len := hk
        apply packetBytes_congr
        intro j hj
        show (if self.addr_virt + j = pool.get_virt_addr a + k then v
              else clone_from_slice mem (pool.get_virt_addr a) self.addr_virt self.len
                (self.addr_virt + j)) =
            clone_from_slice mem (pool.get_virt_addr a) self.addr_virt self.len
              (self.addr_virt + j)
        rw [if_neg (fun heq => get_virt_addr_ranges_disjoint pool self.len a self.pool_entry
          (self.addr_virt + j) hlen hane
          (by rw [haddr]; exact Nat.le_add_right _ _)
          (by rw [haddr]; exact Nat.add_lt_add_left hj _)
          ⟨by rw [heq]; exact Nat.le_add_right _ _,
           by rw [heq]; exact Nat.add_lt_add_left hk2 _⟩)]

/-- Witness for C8: duplicating a 3-byte packet at entry 0 onto the free
entry 1; bytes are copied, the original untouched, and a write into the
duplicate does not touch the original. -/
theorem packet_clone_spec_witness :
    pktC8.pool_entry ≠ selfC8.pool_entry ∧
    packetBytes memC8b pktC8 = packetBytes memC8 selfC8 ∧
    packetBytes memC8b selfC8 = packetBytes memC8 selfC8 ∧
    packetBytes (writeByte memC8b (pktC8.addr_virt + 1) 99) selfC8 =
      packetBytes memC8b selfC8 :=
  ⟨((packet_clone_spec poolC8 memC8 selfC8 (by decide) (by decide) (by decide)).2
      pktC8 poolC8b memC8b rfl).1,
   ((packet_clone_spec poolC8 memC8 selfC8 (by decide) (by decide) (by decide)).2
      pktC8 poolC8b memC8b rfl).2.2.2.2.1,
   ((packet_clone_spec poolC8 memC8 selfC8 (by decide) (by decide) (by decide)).2
      pktC8 poolC8b memC8b rfl).2.2.2.2.2.1,
   ((packet_clone_spec poolC8 memC8 selfC8 (by decide) (by decide) (by decide)).2
      pktC8 poolC8b memC8b rfl).2.2.2.2.2.2 1 99 (by decide)⟩

end IxyMemory
